import Mathlib

/-!
Verification of the nncg IR core (nodes/expressions.py, traverse/actions/searchnode.py)
against its natural-language specification.  Code-object nodes (Expression, Constant,
Variable, IndexedVariable) are embedded as Lean structures with their rendering
operations; graph traversal and search are embedded over an index-addressed arena
(the spec's own suggested representation), since the traversal engine itself
(traverse/tree.py) is not among the given sources and is modelled from the spec.
-/

namespace NNCG

/-! ## Variable (nncg/nodes/expressions.py, class Variable)

A `Variable` mirrors the Python object's fields.  Initializer samples are
represented by their rendered scientific literals (the output of
`np.format_float_scientific(f, precision=15)`); binary floating-point digit
generation is not part of the embedding.  `dim_str`/`data_str` are the caches
that `get_def` stores on the object just before formatting. -/

structure Variable where
  type : String
  name : String
  dim : Option (List Nat)
  alignment : String
  index : Nat
  init_data : Option (List String)
  decl_written : Bool
  pads : List (Nat × Nat)
  temporal_value : Option String
  dim_str : Option String
  data_str : Option String
deriving DecidableEq, Repr

/-- Modelled from the spec: `nncg.tools._len` is imported by expressions.py but its
source is not under src/.  Per the spec's data model ("dimension sizes (absent ⇒
scalar)", "padding-list length equals dimension count (zero for scalars)") it is the
dimension count of an optional list: 0 when absent, the length otherwise. -/
def _len : Option (List Nat) → Nat
  | none => 0
  | some l => l.length

/-- `Variable.set_alignment`: a positive byte count stores the directive
`alignas(8 * bytes)`, otherwise the empty string. -/
def Variable.set_alignment (v : Variable) (bytes : Int) : Variable :=
  if bytes > 0 then
    { v with alignment := "alignas(" ++ toString (8 * bytes) ++ ")" }
  else
    { v with alignment := "" }

/-- `Variable.__init__`: sets `decl_written := False`, stores the fields, applies
`set_alignment`, and initialises `pads` with `_len dim` pairs `[0, 0]`. -/
def Variable.init (type name : String) (dim : Option (List Nat)) (alignment : Int)
    (index : Nat) (init_data : Option (List String)) : Variable :=
  Variable.set_alignment
    { type := type, name := name, dim := dim, alignment := "", index := index,
      init_data := init_data, decl_written := false,
      pads := List.replicate (_len dim) (0, 0),
      temporal_value := none, dim_str := none, data_str := none }
    alignment

/-- `Variable.__str__`: the transient override's text when set, else
`name` + "_" + `index`. -/
def Variable.str (v : Variable) : String :=
  match v.temporal_value with
  | some t => t
  | none => v.name ++ "_" ++ toString v.index

/-- `Variable.change_padding`: asserts `len(pads) == _len(self.dim)` and only then
assigns; the assertion failure (a raised `AssertionError`, before any mutation)
is `none`. -/
def Variable.change_padding (v : Variable) (pads : List (Nat × Nat)) : Option Variable :=
  if pads.length = _len v.dim then some { v with pads := pads } else none

/-- `Variable.get_cast`. -/
def Variable.get_cast (v : Variable) : String :=
  "(" ++ v.type ++ "*)"

/-- Concatenation of string fragments, as Python's `''.join`. -/
def strJoin : List String → String
  | [] => ""
  | s :: r => s ++ strJoin r

/-- `Variable._get_dim_str`: one bracketed size `i + j[0] + j[1]` per `zip` pair of
`np.atleast_1d(self.dim)` and `self.pads`.  For a scalar (`dim` absent) the Python
`atleast_1d` produces a one-element object array, but `pads` is empty, so the zip
is empty either way; `getD []` renders that faithfully. -/
def Variable._get_dim_str (v : Variable) : String :=
  strJoin (((v.dim.getD []).zip v.pads).map
    (fun p => "[" ++ toString (p.1 + p.2.1 + p.2.2) ++ "]"))

/-- The initializer text of `get_def`: the comma-joined flattened samples when
`init_data` is present and writing is requested, else the single literal `"0"`
(inlined in the Python source; factored out here so theorems can name it). -/
def Variable._data_str (v : Variable) (write_init_data : Bool) : String :=
  match v.init_data, write_init_data with
  | some l, true => String.intercalate "," l
  | _, _ => "0"

/-- `Variable.get_def`: returns `None` when `decl_written` is already set (and the
flag is never modified here); otherwise stores the `dim_str`/`data_str` caches and
returns the full `static` declaration rendered from the object's fields. -/
def Variable.get_def (v : Variable) (write_init_data : Bool) : Option String × Variable :=
  if v.decl_written then (none, v)
  else
    let ds := v._get_dim_str
    let dat := v._data_str write_init_data
    (some ("static " ++ v.type ++ " " ++ v.name ++ "_" ++ toString v.index ++ " " ++
      v.alignment ++ " " ++ ds ++ " = \x7b " ++ dat ++ " \x7d;\n"),
     { v with dim_str := some ds, data_str := some dat })

/-- `Variable.get_pointer_decl`: always renders the pointer declaration from the
object's fields; it neither consults nor changes `decl_written`. -/
def Variable.get_pointer_decl (v : Variable) : String :=
  v.type ++ " *" ++ v.name ++ "_" ++ toString v.index ++ " " ++ v.alignment ++ ";\n"

/-! ### C1: declaration idempotence -/

/-- A concrete scalar variable used as input for C1. -/
def vC1 : Variable := Variable.init "float" "x" none 0 1 none

/-- C1 counterexample: on a freshly constructed variable the first `get_def` call
returns the full text, but it does not set `decl_written`, and a second call on
the resulting state again returns full text instead of no text. -/
theorem C1_counterexample :
    (Variable.get_def vC1 true).fst.isSome = true ∧
    (Variable.get_def vC1 true).snd.decl_written = false ∧
    (Variable.get_def (Variable.get_def vC1 true).snd true).fst.isSome = true := by
  refine ⟨rfl, rfl, rfl⟩

/-- C1 (amended): `get_def` returns no text exactly when `decl_written` is already
set; on a variable whose flag is unset it returns the complete declaration text but
leaves `decl_written` unchanged (the flag is set externally by callers), so
repeated calls keep returning the full text. -/
theorem C1_get_def_flag (v : Variable) (w : Bool) :
    (v.decl_written = true → (Variable.get_def v w).fst = none) ∧
    (v.decl_written = false →
      (Variable.get_def v w).fst.isSome = true ∧
      (Variable.get_def v w).snd.decl_written = v.decl_written) := by
  constructor
  · intro h
    simp [Variable.get_def, h]
  · intro h
    simp [Variable.get_def, h]

/-- C1 witness: the amended theorem applied to the concrete variable `vC1`. -/
theorem C1_get_def_flag_witness :
    (Variable.get_def vC1 true).fst.isSome = true ∧
    (Variable.get_def vC1 true).snd.decl_written = vC1.decl_written :=
  (C1_get_def_flag vC1 true).2 rfl

/-! ### C6: per-axis declared sizes -/

theorem join_zip_sizes (D : List Nat) (P : List (Nat × Nat)) (h : P.length = D.length) :
    strJoin ((D.zip P).map (fun p => "[" ++ toString (p.1 + p.2.1 + p.2.2) ++ "]")) =
    strJoin ((List.range D.length).map (fun i =>
      "[" ++ toString (D.getD i 0 + (P.getD i (0, 0)).1 + (P.getD i (0, 0)).2) ++ "]")) := by
  induction D generalizing P with
  | nil => simp [strJoin]
  | cons d D ih =>
    match P, h with
    | p :: P, h =>
      have h' : P.length = D.length := by simpa using h
      have hzip : (d :: D).zip (p :: P) = (d, p) :: D.zip P := rfl
      rw [hzip, List.map_cons, List.length_cons, List.range_succ_eq_map, List.map_cons,
        List.map_map]
      simp only [strJoin]
      congr 1
      rw [ih P h']
      refine congrArg strJoin (List.map_congr_left ?_).symm
      intro i _
      rfl

/-- C6: for an array variable whose padding list matches its dimension count, the
declaration emitted by `get_def` declares on every axis `i` the size
`D_i + lo_i + hi_i` (shown by rendering the whole declaration with the axis-indexed
sizes spelled out). -/
theorem C6_array_sizes (v : Variable) (D : List Nat) (w : Bool)
    (hD : v.dim = some D) (hlen : v.pads.length = D.length) (hw : v.decl_written = false) :
    (Variable.get_def v w).fst =
      some ("static " ++ v.type ++ " " ++ v.name ++ "_" ++ toString v.index ++ " " ++
        v.alignment ++ " " ++
        strJoin ((List.range D.length).map (fun i =>
          "[" ++ toString (D.getD i 0 + (v.pads.getD i (0, 0)).1 +
            (v.pads.getD i (0, 0)).2) ++ "]")) ++
        " = \x7b " ++ v._data_str w ++ " \x7d;\n") := by
  simp only [Variable.get_def, hw, Bool.false_eq_true, if_false]
  have hds : v._get_dim_str =
      strJoin ((List.range D.length).map (fun i =>
        "[" ++ toString (D.getD i 0 + (v.pads.getD i (0, 0)).1 +
          (v.pads.getD i (0, 0)).2) ++ "]")) := by
    unfold Variable._get_dim_str
    rw [hD]
    exact join_zip_sizes D v.pads hlen
  rw [hds]

/-- A concrete 3×3 array with padding, matching the spec's worked example shape. -/
def vC6 : Variable :=
  ((Variable.init "float" "w" (some [3, 3]) 16 0 none).change_padding
    [(1, 1), (0, 2)]).getD (Variable.init "float" "w" (some [3, 3]) 16 0 none)

/-- C6 witness: the theorem applied to the concrete padded array; the declared
sizes are `[5][5]` = `[3+1+1][3+0+2]`. -/
theorem C6_array_sizes_witness :
    (Variable.get_def vC6 true).fst =
      some ("static " ++ vC6.type ++ " " ++ vC6.name ++ "_" ++ toString vC6.index ++ " " ++
        vC6.alignment ++ " " ++
        strJoin ((List.range ([3, 3] : List Nat).length).map (fun i =>
          "[" ++ toString (([3, 3] : List Nat).getD i 0 + (vC6.pads.getD i (0, 0)).1 +
            (vC6.pads.getD i (0, 0)).2) ++ "]")) ++
        " = \x7b " ++ vC6._data_str true ++ " \x7d;\n") :=
  C6_array_sizes vC6 [3, 3] true rfl rfl rfl

/-! ### C8: padding arity -/

/-- C8: `change_padding` fails exactly when the new list's length differs from the
variable's dimension count (the state is untouched on failure since the assertion
raises before assignment); the padding-length invariant holds after construction
and after every successful `change_padding`. -/
theorem C8_padding (v : Variable) (p : List (Nat × Nat)) :
    ((Variable.change_padding v p).isSome = true ↔ p.length = _len v.dim) ∧
    (∀ w, Variable.change_padding v p = some w →
      w.pads = p ∧ w.dim = v.dim ∧ w.pads.length = _len w.dim) ∧
    (∀ t n d a i idat, (Variable.init t n d a i idat).pads.length = _len d) := by
  refine ⟨?_, ?_, ?_⟩
  · unfold Variable.change_padding
    by_cases h : p.length = _len v.dim <;> simp [h]
  · intro w hw
    unfold Variable.change_padding at hw
    by_cases h : p.length = _len v.dim
    · simp only [h, if_true, Option.some.injEq] at hw
      subst hw
      exact ⟨rfl, rfl, h⟩
    · simp [h] at hw
  · intro t n d a i idat
    unfold Variable.init Variable.set_alignment
    by_cases h : a > 0 <;> simp [h, _len]

/-- C8 witness: the theorem applied to a concrete two-dimensional variable and a
matching padding list. -/
theorem C8_padding_witness :
    ((Variable.change_padding (Variable.init "float" "w" (some [3, 3]) 0 0 none)
      [(1, 1), (0, 2)]).isSome = true) ∧
    (Variable.init "int" "s" (some [2]) 0 3 none).pads.length = _len (some [2]) := by
  constructor
  · exact (C8_padding (Variable.init "float" "w" (some [3, 3]) 0 0 none)
      [(1, 1), (0, 2)]).1.mpr (by decide)
  · exact (C8_padding (Variable.init "float" "w" (some [3, 3]) 0 0 none)
      [(1, 1), (0, 2)]).2.2 "int" "s" (some [2]) 0 3 none

/-! ### C9: alignment directive -/

/-- C9: a positive byte count `b` makes the stored alignment directive demand
divisibility by `8 * b`, and both declaration renders carry it verbatim; a byte
count of zero stores the empty string, so declarations carry no directive. -/
theorem C9_alignment (v : Variable) (b : Int) (w : Bool) :
    (b > 0 →
      (Variable.set_alignment v b).alignment = "alignas(" ++ toString (8 * b) ++ ")" ∧
      Variable.get_pointer_decl (Variable.set_alignment v b) =
        v.type ++ " *" ++ v.name ++ "_" ++ toString v.index ++ " " ++
          ("alignas(" ++ toString (8 * b) ++ ")") ++ ";\n" ∧
      (v.decl_written = false →
        (Variable.get_def (Variable.set_alignment v b) w).fst =
          some ("static " ++ v.type ++ " " ++ v.name ++ "_" ++ toString v.index ++ " " ++
            ("alignas(" ++ toString (8 * b) ++ ")") ++ " " ++
            (Variable.set_alignment v b)._get_dim_str ++ " = \x7b " ++
            (Variable.set_alignment v b)._data_str w ++ " \x7d;\n"))) ∧
    (b = 0 → (Variable.set_alignment v b).alignment = "") := by
  constructor
  · intro hb
    have ha : Variable.set_alignment v b =
        { v with alignment := "alignas(" ++ toString (8 * b) ++ ")" } := by
      unfold Variable.set_alignment
      simp [hb]
    refine ⟨by rw [ha], by rw [ha]; rfl, ?_⟩
    intro hw
    rw [ha]
    simp [Variable.get_def, hw]
  · intro hb
    unfold Variable.set_alignment
    simp [hb]

/-- C9 witness: 16 bytes yield the directive `alignas(128)` (8 × 16 = 128), zero
bytes yield none. -/
theorem C9_alignment_witness :
    ((Variable.set_alignment vC1 16).alignment = "alignas(" ++ toString (128 : Int) ++ ")") ∧
    (Variable.set_alignment vC1 0).alignment = "" := by
  constructor
  · exact ((C9_alignment vC1 16 true).1 (by decide)).1
  · exact (C9_alignment vC1 0 true).2 rfl

/-! ### C10: pointer declaration is not gated by the flag -/

/-- C10: `get_pointer_decl` renders the full pointer declaration (type, unique
name, alignment) regardless of `decl_written` — its output is by construction a
function of the other fields only and it returns no new state, so the flag is
unchanged — while `get_def` returns no text once the flag is set. -/
theorem C10_pointer_decl (v : Variable) (w : Bool) :
    Variable.get_pointer_decl { v with decl_written := true } =
      Variable.get_pointer_decl v ∧
    Variable.get_pointer_decl v =
      v.type ++ " *" ++ v.name ++ "_" ++ toString v.index ++ " " ++ v.alignment ++ ";\n" ∧
    (v.decl_written = true → (Variable.get_def v w).fst = none) := by
  refine ⟨rfl, rfl, ?_⟩
  intro h
  simp [Variable.get_def, h]

/-- C10 witness: the theorem applied to a variable whose flag is already set. -/
theorem C10_pointer_decl_witness :
    Variable.get_pointer_decl { vC1 with decl_written := true } =
      Variable.get_pointer_decl vC1 ∧
    (Variable.get_def { vC1 with decl_written := true } true).fst = none := by
  refine ⟨(C10_pointer_decl vC1 true).1, ?_⟩
  exact (C10_pointer_decl { vC1 with decl_written := true } true).2.2 rfl

/-! ## Expression (class Expression) and the named-field subset of str.format

`Expression.__str__` is `self.snippet.format(**self.edges)`.  The parser below
models Python `str.format` on the shapes the repository's snippets use: named
fields `\x7bname\x7d`, literal-brace escapes, stray/unterminated braces as errors.
A positional or auto-numbered field (empty or all-digit name) is an IndexError
because no positional arguments are supplied.  Bindings without a matching
placeholder are ignored by `str.format`. -/

inductive Seg where
  | lit : String → Seg
  | ph : String → Seg
deriving DecidableEq, Repr

/-- Template scanner; the second argument is the accumulator of the currently
open field name (`none` while scanning literal text). -/
def parseFmtAux : List Char → Option (List Char) → Option (List Seg)
  | [], none => some []
  | [], some _ => none
  | c :: rest, some acc =>
    if c = '}' then
      (parseFmtAux rest none).map (fun segs => Seg.ph (String.mk acc.reverse) :: segs)
    else
      parseFmtAux rest (some (c :: acc))
  | '{' :: '{' :: rest, none =>
    (parseFmtAux rest none).map (fun segs => Seg.lit "\x7b" :: segs)
  | '}' :: '}' :: rest, none =>
    (parseFmtAux rest none).map (fun segs => Seg.lit "\x7d" :: segs)
  | '{' :: rest, none => parseFmtAux rest (some [])
  | '}' :: _, none => none
  | c :: rest, none =>
    (parseFmtAux rest none).map (fun segs => Seg.lit (String.mk [c]) :: segs)

def parseFmt (l : List Char) : Option (List Seg) :=
  parseFmtAux l none

/-- Field substitution over a parsed template: a placeholder whose name is empty
or all digits is positional (IndexError, `none`); an unbound name is a KeyError
(`none`); otherwise the binding's text is inserted.  Unused bindings are never
consulted. -/
def renderSegs : List Seg → List (String × String) → Option String
  | [], _ => some ""
  | Seg.lit s :: rest, env => (renderSegs rest env).map (fun r => s ++ r)
  | Seg.ph n :: rest, env =>
    if n.toList.all (fun c => c.isDigit) then none
    else
      match List.lookup n env with
      | none => none
      | some v => (renderSegs rest env).map (fun r => v ++ r)

/-- Python `str.format` with keyword arguments only. -/
def pyFormat (tmpl : String) (env : List (String × String)) : Option String :=
  (parseFmt tmpl.toList).bind (fun segs => renderSegs segs env)

/-- A renderable child bound into an Expression snippet: a Constant (class
Constant wraps a printable value and renders to its string form) or a Variable.
Edge formatting delegates to the target's `__str__`. -/
inductive RNode where
  | konst : String → RNode
  | var : Variable → RNode
deriving DecidableEq, Repr

def RNode.str : RNode → String
  | RNode.konst c => c
  | RNode.var v => Variable.str v

/-- Class Expression: the snippet plus the kwargs edges in insertion order
(each kwarg name bound via `add_edge(a, kwargs[a], 'm_expr')`; the kind tag does
not influence rendering). -/
structure Expression where
  snippet : String
  edges : List (String × RNode)
deriving DecidableEq, Repr

/-- The edge mapping as seen by `format(**self.edges)`: edge name to the bound
target's rendered text. -/
def edgeStrs (env : List (String × RNode)) : List (String × String) :=
  env.map (fun p => (p.1, RNode.str p.2))

/-- `Expression.__str__` = `self.snippet.format(**self.edges)`. -/
def Expression.str (e : Expression) : Option String :=
  pyFormat e.snippet (edgeStrs e.edges)

/-- The placeholder names of a parsed template, in order. -/
def phNames (segs : List Seg) : List String :=
  segs.filterMap (fun s => match s with | Seg.ph n => some n | _ => none)

/-- The spec's description of Expression rendering: the template text with each
placeholder replaced by the bound child's rendered text. -/
def substSpec (segs : List Seg) (env : List (String × String)) : String :=
  strJoin (segs.map (fun s => match s with
    | Seg.lit t => t
    | Seg.ph n => (List.lookup n env).getD ""))

theorem phNames_cons_lit (t : String) (rest : List Seg) :
    phNames (Seg.lit t :: rest) = phNames rest := rfl

theorem phNames_cons_ph (n : String) (rest : List Seg) :
    phNames (Seg.ph n :: rest) = n :: phNames rest := rfl

theorem lookup_append_single_ne (l : List (String × String)) (x n s : String)
    (h : n ≠ x) : List.lookup n (l ++ [(x, s)]) = List.lookup n l := by
  induction l with
  | nil =>
    have hx : (n == x) = false := beq_eq_false_iff_ne.mpr h
    simp [List.lookup, hx]
  | cons p l ih =>
    cases p with
    | mk k v =>
      by_cases hk : (n == k) = true
      · simp [List.lookup, hk]
      · simp only [List.cons_append, List.lookup, hk]
        exact ih

theorem renderSegs_all_bound (segs : List Seg) (env : List (String × String))
    (h : ∀ n ∈ phNames segs, (n.toList.all (fun c => c.isDigit)) = false ∧
      (List.lookup n env).isSome = true) :
    renderSegs segs env = some (substSpec segs env) := by
  induction segs with
  | nil => rfl
  | cons s rest ih =>
    cases s with
    | lit t =>
      have hrest : ∀ n ∈ phNames rest, (n.toList.all (fun c => c.isDigit)) = false ∧
          (List.lookup n env).isSome = true := by
        intro n hn
        exact h n (by rw [phNames_cons_lit]; exact hn)
      simp only [renderSegs, ih hrest, Option.map_some']
      rfl
    | ph n =>
      have hrest : ∀ m ∈ phNames rest, (m.toList.all (fun c => c.isDigit)) = false ∧
          (List.lookup m env).isSome = true := by
        intro m hm
        exact h m (by rw [phNames_cons_ph]; exact List.mem_cons_of_mem _ hm)
      have hn := h n (by rw [phNames_cons_ph]; exact List.mem_cons_self _ _)
      obtain ⟨v, hv⟩ := Option.isSome_iff_exists.mp hn.2
      simp only [renderSegs, hn.1, Bool.false_eq_true, if_false, hv, ih hrest,
        Option.map_some']
      have : substSpec (Seg.ph n :: rest) env =
          (List.lookup n env).getD "" ++ substSpec rest env := rfl
      rw [this, hv]
      rfl

theorem renderSegs_unbound (segs : List Seg) (env : List (String × String))
    (h : ∃ n ∈ phNames segs, List.lookup n env = none) :
    renderSegs segs env = none := by
  induction segs with
  | nil =>
    obtain ⟨n, hn, _⟩ := h
    exact absurd hn (List.not_mem_nil n)
  | cons s rest ih =>
    cases s with
    | lit t =>
      have : renderSegs rest env = none := by
        apply ih
        obtain ⟨n, hn, hnone⟩ := h
        rw [phNames_cons_lit] at hn
        exact ⟨n, hn, hnone⟩
      simp [renderSegs, this]
    | ph n =>
      by_cases hd : (n.toList.all (fun c => c.isDigit)) = true
      · simp only [renderSegs, hd, if_true]
      · obtain ⟨m, hm, hnone⟩ := h
        rw [phNames_cons_ph] at hm
        rcases List.mem_cons.mp hm with hmn | hmrest
        · subst hmn
          simp [renderSegs, hd, hnone]
        · cases hl : List.lookup n env with
          | none => simp [renderSegs, hd, hl]
          | some v =>
            have hrest : renderSegs rest env = none := ih ⟨m, hmrest, hnone⟩
            simp [renderSegs, hd, hl, hrest]

theorem renderSegs_extra (segs : List Seg) (env : List (String × String))
    (x s : String) (hx : x ∉ phNames segs) :
    renderSegs segs (env ++ [(x, s)]) = renderSegs segs env := by
  induction segs with
  | nil => rfl
  | cons sg rest ih =>
    cases sg with
    | lit t =>
      have hx' : x ∉ phNames rest := by
        rw [phNames_cons_lit] at hx
        exact hx
      simp [renderSegs, ih hx']
    | ph n =>
      rw [phNames_cons_ph] at hx
      have hxn : x ≠ n := fun hc => hx (hc ▸ List.mem_cons_self _ _)
      have hx' : x ∉ phNames rest := fun hc => hx (List.mem_cons_of_mem _ hc)
      simp only [renderSegs]
      rw [lookup_append_single_ne env x n s (fun hc => hxn hc.symm)]
      cases List.lookup n env with
      | none => rfl
      | some v => simp [ih hx']

/-- C2 counterexample: an unused binding (`b`) is not an error; the template
`\x7ba\x7d` with bindings for both `a` and `b` renders to `1`, not to a failure. -/
theorem C2_counterexample :
    Expression.str ⟨"{a}", [("a", RNode.konst "1"), ("b", RNode.konst "2")]⟩ = some "1" := rfl

/-- C2 (amended): under a successfully parsed template, rendering fails whenever
some placeholder has no bound edge; when every placeholder is a valid named field
with a bound edge, rendering returns the template with each placeholder replaced
by the bound child's rendered text; and a bound edge whose name occurs in no
placeholder is silently ignored (removing it does not change the result), not an
error. -/
theorem C2_format (tmpl : String) (env : List (String × RNode)) (segs : List Seg)
    (hp : parseFmt tmpl.toList = some segs) :
    ((∀ n ∈ phNames segs, (n.toList.all (fun c => c.isDigit)) = false ∧
        (List.lookup n (edgeStrs env)).isSome = true) →
      Expression.str ⟨tmpl, env⟩ = some (substSpec segs (edgeStrs env))) ∧
    ((∃ n ∈ phNames segs, List.lookup n (edgeStrs env) = none) →
      Expression.str ⟨tmpl, env⟩ = none) ∧
    (∀ x r, x ∉ phNames segs →
      Expression.str ⟨tmpl, env ++ [(x, r)]⟩ = Expression.str ⟨tmpl, env⟩) := by
  refine ⟨?_, ?_, ?_⟩
  · intro h
    simp only [Expression.str, pyFormat, hp, Option.bind_some]
    exact renderSegs_all_bound segs (edgeStrs env) h
  · intro h
    simp only [Expression.str, pyFormat, hp, Option.bind_some]
    exact renderSegs_unbound segs (edgeStrs env) h
  · intro x r hx
    simp only [Expression.str, pyFormat, hp, Option.bind_some]
    have : edgeStrs (env ++ [(x, r)]) = edgeStrs env ++ [(x, RNode.str r)] := by
      simp [edgeStrs]
    rw [this]
    exact renderSegs_extra segs (edgeStrs env) x (RNode.str r) hx

/-- C2 witness: the spec's own example, template `\x7ba\x7d + \x7bb\x7d` bound to the
constants 1 and 2 renders to `1 + 2`, via the amended theorem. -/
theorem C2_format_witness :
    Expression.str ⟨"{a} + {b}", [("a", RNode.konst "1"), ("b", RNode.konst "2")]⟩ =
      some "1 + 2" := by
  have h := (C2_format "{a} + {b}" [("a", RNode.konst "1"), ("b", RNode.konst "2")]
      [Seg.ph "a", Seg.lit " ", Seg.lit "+", Seg.lit " ", Seg.ph "b"] rfl).1
  rw [h (by decide)]
  rfl

/-! ## IndexedVariable (class IndexedVariable) -/

/-- An index child node (usually a Variable or Expression); `id` models Python
object identity (TreeNode defines no `__eq__`, so `==` is identity), `text` its
rendered string. -/
structure IdxNode where
  id : Nat
  text : String
deriving DecidableEq, Repr

structure IndexedVariable where
  var : Variable
  padding_to_offset : Bool
  indices : List IdxNode
deriving DecidableEq, Repr

/-- `IndexedVariable.__init__`: stores the variable edge and the flag. -/
def IndexedVariable.init (var : Variable) (padding_to_offset : Bool) : IndexedVariable :=
  { var := var, padding_to_offset := padding_to_offset, indices := [] }

/-- `set_indices`: attaches the index nodes under edge names '0', '1', … of kind
`index` (re-adding a name replaces, so on a fresh node the attachment order is the
list order, and `get_node_by_type('index')` returns exactly this list). -/
def IndexedVariable.set_indices (iv : IndexedVariable) (indices : List IdxNode) :
    IndexedVariable :=
  { iv with indices := indices }

/-- Python `list.index`: position of the first element comparing equal to `x`
(identity comparison for TreeNodes). -/
def pyListIndex (l : List IdxNode) (x : IdxNode) : Nat :=
  l.findIdx (fun y => y.id == x.id)

/-- The subscript loop of `IndexedVariable.__str__`: for each attached index `i`,
append `"[" + str(i)`, then when offset compensation is on
`" + " + str(self.get_node('var').pads[n.index(i)][0])`, then `"]"`.  An
out-of-range pads subscript is an IndexError (`none`). -/
def IndexedVariable.strGo (iv : IndexedVariable) : List IdxNode → String → Option String
  | [], s => some s
  | i :: rest, s =>
    if iv.padding_to_offset then
      match iv.var.pads.get? (pyListIndex iv.indices i) with
      | none => none
      | some pr =>
        IndexedVariable.strGo iv rest (s ++ "[" ++ i.text ++ " + " ++ toString pr.1 ++ "]")
    else
      IndexedVariable.strGo iv rest (s ++ "[" ++ i.text ++ "]")

/-- `IndexedVariable.__str__`: the variable's rendered name followed by the
subscripts. -/
def IndexedVariable.str (iv : IndexedVariable) : Option String :=
  IndexedVariable.strGo iv iv.indices (Variable.str iv.var)

/-! ### C3: offset compensation uses list.index, not the attachment axis -/

/-- A 4×4 array with leading pads 1 (axis 0) and 2 (axis 1). -/
def vC3 : Variable :=
  ((Variable.init "float" "v" (some [4, 4]) 0 0 none).change_padding
    [(1, 0), (2, 0)]).getD (Variable.init "float" "v" (some [4, 4]) 0 0 none)

/-- One index node, attached at both axes (aliasing is expected in this graph
model). -/
def cIdx : IdxNode := { id := 7, text := "c" }

def ivC3 : IndexedVariable := (IndexedVariable.init vC3 true).set_indices [cIdx, cIdx]

/-- C3: with the same index node attached at axis 0 and axis 1 over pads
[(1,0), (2,0)], the code adds the pad of the *first* axis at which an identical
node occurs (`n.index(i)`) to both subscripts, rendering `v_0[c + 1][c + 1]`
instead of the claimed per-axis `v_0[c + 1][c + 2]`. -/
theorem C3_aliased_index_eval :
    IndexedVariable.str ivC3 = some "v_0[c + 1][c + 1]" ∧
    IndexedVariable.str ivC3 ≠ some "v_0[c + 1][c + 2]" :=
  ⟨rfl, by decide⟩


/-! ## Graph substrate and traversal

Modelled from the spec: the traversal engine (nncg/traverse/tree.py, providing
TreeNode, Edge and the depth-first walk) is not under src/.  Following the
spec's data model (section 3: an edge is a (name, kind-tag, target) triple; a
node holds an ordered edge mapping) and its design note (section 9: nodes as
entries of an index-addressed arena, aliasing as index equality), a graph is the
list of every node's ordered outgoing edge list. -/

structure EdgeT where
  ename : String
  kind : String
  tgt : Nat
deriving DecidableEq, Repr

abbrev Graph := List (List EdgeT)

/-- A node's outgoing edges in attachment order (a node outside the arena has
none). -/
def outEdges (g : Graph) (n : Nat) : List EdgeT := (g.get? n).getD []

/-- One edge visit of the traversal: (source node, attachment position, target
node). -/
abbrev Visit := Nat × Nat × Nat

/-- The edge loop of the walk at node `n`, starting at attachment position `j`:
each edge is visited (its pre and post hooks run), and between the two hooks
the walk descends into the target via the continuation `k`. -/
def visitList (k : Nat → List Visit) (n : Nat) : Nat → List EdgeT → List Visit
  | _, [] => []
  | j, e :: es => (n, j, e.tgt) :: (k e.tgt ++ visitList k n (j + 1) es)

/-- Modelled from the spec (section 4.2): the full depth-first traversal from
node `n` listing every edge visit in order; for every edge the walk descends
into the target's own outgoing edges in attachment order before the edge's
post-order hook (the search actions in src always report descend).  `fuel`
bounds the recursion depth; any fuel of at least the arena size is enough for
the topologically numbered graphs considered below. -/
def dfs (g : Graph) : Nat → Nat → List Visit
  | 0, _ => []
  | fuel + 1, n => visitList (fun t => dfs g fuel t) n 0 (outEdges g n)

/-- The edge loop of a `SearchNode` run (traverse/actions/searchnode.py): the
pre-hook pushes the edge's target on the path stack and descends (continuation
`k`, which receives the extended stack); the post-hook appends a copy of the
stack to the result when the target is the searched node (TreeNode `==` is
instance identity, index equality here), then pops. -/
def searchList (k : Nat → List Nat → List (List Nat)) (tgt : Nat) (path : List Nat) :
    List EdgeT → List (List Nat)
  | [] => []
  | e :: es =>
    k e.tgt (path ++ [e.tgt]) ++
    ((if e.tgt = tgt then [path ++ [e.tgt]] else []) ++
      searchList k tgt path es)

/-- A full `SearchNode` (identity search) run from node `n` with current path
stack `path`, returning the result list in the order the Python action builds
it. -/
def searchRun (g : Graph) : Nat → Nat → List Nat → Nat → List (List Nat)
  | 0, _, _, _ => []
  | fuel + 1, n, path, tgt =>
    searchList (fun t p => searchRun g fuel t p tgt) tgt path (outEdges g n)

/-- Reachability along edges. -/
inductive Reaches (g : Graph) : Nat → Nat → Prop
  | refl (n : Nat) : Reaches g n n
  | step (n : Nat) (e : EdgeT) (m : Nat) (he : e ∈ outEdges g n)
      (h : Reaches g e.tgt m) : Reaches g n m

/-- A valid non-empty path of node indices descending from `n` along edges;
per the spec, result paths exclude the traversal root and include the match. -/
inductive ValidPath (g : Graph) : Nat → List Nat → Prop
  | single (n t : Nat) (e : EdgeT) (he : e ∈ outEdges g n) (ht : e.tgt = t) :
      ValidPath g n [t]
  | cons (n t : Nat) (q : List Nat) (e : EdgeT) (he : e ∈ outEdges g n)
      (ht : e.tgt = t) (hq : ValidPath g t q) : ValidPath g n (t :: q)

/-- Cycle-freeness, given concretely: the arena is numbered topologically (every
edge points to a strictly larger index).  Any finite cycle-free graph can be
renumbered this way, and the numbering does not affect attachment order. -/
def TopoOK (g : Graph) : Prop := ∀ n, ∀ e ∈ outEdges g n, n < e.tgt

/-- Executable check for `TopoOK`. -/
def topoCheck (g : Graph) : Bool :=
  (List.range g.length).all (fun n => (outEdges g n).all (fun e => decide (n < e.tgt)))

/-- Every edge target of the arena, in attachment order node by node; this list
being duplicate-free says every node has at most one incoming edge. -/
def allTargets (g : Graph) : List Nat :=
  (g.map (fun es => es.map (fun e => e.tgt))).flatten

/-- The expected visit block of node `m`: its outgoing edges in attachment
order. -/
def tEnum (g : Graph) (m : Nat) : List Visit :=
  (outEdges g m).enum.map (fun p => (m, p.1, p.2.tgt))

theorem outEdges_eq_nil (g : Graph) (n : Nat) (h : g.length ≤ n) : outEdges g n = [] := by
  unfold outEdges
  rw [List.get?_eq_none.mpr h]
  rfl

theorem topoCheck_sound (g : Graph) (h : topoCheck g = true) : TopoOK g := by
  intro n e he
  by_cases hn : n < g.length
  · have h1 := (List.all_eq_true.mp h) n (List.mem_range.mpr hn)
    have h2 := (List.all_eq_true.mp h1) e he
    exact of_decide_eq_true h2
  · rw [outEdges_eq_nil g n (le_of_not_lt hn)] at he
    exact absurd he (List.not_mem_nil e)

/-! ### C4 diamond counterexample graph -/

/-- Diamond with a tail: 0 → 1 and 0 → 2, 1 → 3 and 2 → 3, 3 → 4.  Node 3 is
referenced by two parents, so its outgoing edge (3,0,4) is walked once per
incoming path. -/
def gD : Graph :=
  [[⟨"l", "e", 1⟩, ⟨"r", "e", 2⟩], [⟨"d", "e", 3⟩], [⟨"d", "e", 3⟩],
   [⟨"t", "e", 4⟩], []]

/-- C4 counterexample: the diamond graph is cycle-free, the edge from node 3 to
node 4 is reachable from the root 0, yet a full traversal visits it twice (once
per parent of node 3), not exactly once. -/
theorem C4_counterexample :
    topoCheck gD = true ∧ Reaches gD 0 3 ∧
    (dfs gD 9 0).count ((3 : Nat), (0 : Nat), (4 : Nat)) = 2 := by
  refine ⟨by decide, ?_, by decide⟩
  exact Reaches.step 0 ⟨"l", "e", 1⟩ 3 (by decide)
    (Reaches.step 1 ⟨"d", "e", 3⟩ 3 (by decide) (Reaches.refl 3))

/-! ### C5: identity search -/

theorem searchList_length (tgt : Nat) (k : Nat → List Nat → List (List Nat))
    (dk : Nat → List Visit) (n : Nat)
    (hk : ∀ t p, (k t p).length = (dk t).countP (fun v => v.2.2 == tgt)) :
    ∀ (es : List EdgeT) (j : Nat) (path : List Nat),
      (searchList k tgt path es).length =
        (visitList dk n j es).countP (fun v => v.2.2 == tgt) := by
  intro es
  induction es with
  | nil => intro j path; rfl
  | cons e es ih =>
    intro j path
    rw [show searchList k tgt path (e :: es) =
      k e.tgt (path ++ [e.tgt]) ++
        ((if e.tgt = tgt then [path ++ [e.tgt]] else []) ++
          searchList k tgt path es) from rfl]
    rw [show visitList dk n j (e :: es) =
      (n, j, e.tgt) :: (dk e.tgt ++ visitList dk n (j + 1) es) from rfl]
    rw [List.length_append, List.length_append, List.countP_cons, List.countP_append]
    rw [hk e.tgt (path ++ [e.tgt]), ih (j + 1) path]
    by_cases ht : e.tgt = tgt
    · simp [ht]
      omega
    · simp [ht, beq_eq_false_iff_ne.mpr ht]

theorem search_length (g : Graph) (tgt : Nat) :
    ∀ (fuel n : Nat) (path : List Nat),
      (searchRun g fuel n path tgt).length =
        (dfs g fuel n).countP (fun v => v.2.2 == tgt) := by
  intro fuel
  induction fuel with
  | zero => intro n path; rfl
  | succ fuel ih =>
    intro n path
    exact searchList_length tgt (fun t p => searchRun g fuel t p tgt)
      (fun t => dfs g fuel t) n (fun t p => ih t p) (outEdges g n) 0 path

theorem validPath_ne_nil (g : Graph) (n : Nat) (q : List Nat) (h : ValidPath g n q) :
    q ≠ [] := by
  cases h <;> simp

theorem searchList_paths (g : Graph) (tgt : Nat) (k : Nat → List Nat → List (List Nat))
    (n : Nat)
    (hk : ∀ t path p, p ∈ k t path →
      ∃ q, p = path ++ q ∧ ValidPath g t q ∧ q.getLast? = some tgt) :
    ∀ (es : List EdgeT), (∀ e ∈ es, e ∈ outEdges g n) →
      ∀ (path : List Nat) (p : List Nat), p ∈ searchList k tgt path es →
        ∃ q, p = path ++ q ∧ ValidPath g n q ∧ q.getLast? = some tgt := by
  intro es
  induction es with
  | nil =>
    intro _ path p hp
    exact absurd hp (List.not_mem_nil p)
  | cons e es ih =>
    intro hsub path p hp
    have he : e ∈ outEdges g n := hsub e (List.mem_cons_self e es)
    rw [show searchList k tgt path (e :: es) =
      k e.tgt (path ++ [e.tgt]) ++
        ((if e.tgt = tgt then [path ++ [e.tgt]] else []) ++
          searchList k tgt path es) from rfl] at hp
    rcases List.mem_append.mp hp with h1 | h23
    · obtain ⟨q, hq, hval, hlast⟩ := hk e.tgt (path ++ [e.tgt]) p h1
      refine ⟨e.tgt :: q, ?_, ValidPath.cons n e.tgt q e he rfl hval, ?_⟩
      · rw [hq, List.append_assoc]
        rfl
      · obtain ⟨x, xs, hx⟩ := List.exists_cons_of_ne_nil (validPath_ne_nil g e.tgt q hval)
        rw [hx] at hlast ⊢
        rw [List.getLast?_cons_cons]
        exact hlast
    · rcases List.mem_append.mp h23 with h2 | h3
      · by_cases ht : e.tgt = tgt
        · rw [ht] at h2
          simp only [if_true] at h2
          have hp2 : p = path ++ [tgt] := List.mem_singleton.mp (by simpa [ht] using h2)
          refine ⟨[tgt], hp2, ?_, rfl⟩
          exact ValidPath.single n tgt e he ht
        · simp only [ht, if_false] at h2
          exact absurd h2 (List.not_mem_nil p)
      · exact ih (fun x hx => hsub x (List.mem_cons_of_mem e hx)) path p h3

theorem search_paths (g : Graph) (tgt : Nat) :
    ∀ (fuel n : Nat) (path p : List Nat), p ∈ searchRun g fuel n path tgt →
      ∃ q, p = path ++ q ∧ ValidPath g n q ∧ q.getLast? = some tgt := by
  intro fuel
  induction fuel with
  | zero =>
    intro n path p hp
    exact absurd hp (List.not_mem_nil p)
  | succ fuel ih =>
    intro n path p hp
    exact searchList_paths g tgt (fun t q => searchRun g fuel t q tgt) n
      (fun t q r hr => ih t q r hr) (outEdges g n) (fun e he => he) path p hp

/-- C5: an identity-search run records exactly one result per visited edge whose
target is the searched node (so zero matches give the empty list and a node
reached over two distinct edges gives two result entries), and every recorded
path is a valid edge path from (excluding) the traversal root down to and
including the match. -/
theorem C5_search (g : Graph) (fuel root tgt : Nat) :
    (searchRun g fuel root [] tgt).length =
      (dfs g fuel root).countP (fun v => v.2.2 == tgt) ∧
    ∀ p ∈ searchRun g fuel root [] tgt,
      ValidPath g root p ∧ p.getLast? = some tgt := by
  constructor
  · exact search_length g tgt fuel root []
  · intro p hp
    obtain ⟨q, hq, hval, hlast⟩ := search_paths g tgt fuel root [] p hp
    rw [List.nil_append] at hq
    rw [hq]
    exact ⟨hval, hlast⟩

/-- Two expression-like parents (nodes 1 and 2) each holding an edge to the same
node 3 (the spec's aliased-variable example). -/
def gC5 : Graph :=
  [[⟨"x", "e", 1⟩, ⟨"y", "e", 2⟩], [⟨"p", "e", 3⟩], [⟨"q", "e", 3⟩], []]

/-- C5 witness: on the aliasing example the search for node 3 returns exactly two
paths, and [1, 3] is one of them: a valid root-exclusive path ending at the
match. -/
theorem C5_search_witness :
    (searchRun gC5 9 0 [] 3).length = 2 ∧
    (ValidPath gC5 0 [1, 3] ∧ ([1, 3] : List Nat).getLast? = some 3) := by
  constructor
  · rw [(C5_search gC5 9 0 3).1]
    decide
  · exact (C5_search gC5 9 0 3).2 [1, 3] (by decide)


/-! ### C4: exactly-once traversal in single-parent graphs -/

theorem outEdges_lt (g : Graph) (p : Nat) (h : p < g.length) : outEdges g p = g[p] := by
  unfold outEdges
  rw [List.get?_eq_getElem?, List.getElem?_eq_getElem h]
  rfl

theorem mem_out_lt_length (g : Graph) (p : Nat) (e : EdgeT) (he : e ∈ outEdges g p) :
    p < g.length := by
  by_contra h
  rw [outEdges_eq_nil g p (le_of_not_lt h)] at he
  exact absurd he (List.not_mem_nil e)

theorem targets_nodup (g : Graph) (hsp : (allTargets g).Nodup) (p : Nat) :
    ((outEdges g p).map (fun e => e.tgt)).Nodup := by
  by_cases hp : p < g.length
  · apply (List.nodup_flatten.mp hsp).1
    rw [outEdges_lt g p hp]
    have hp2 : p < (g.map (fun es => es.map (fun e => e.tgt))).length := by simpa
    have hg : (g.map (fun es => es.map (fun e => e.tgt)))[p] = g[p].map (fun e => e.tgt) :=
      List.getElem_map _
    rw [← hg]
    exact List.getElem_mem hp2
  · rw [outEdges_eq_nil g p (le_of_not_lt hp)]
    exact List.nodup_nil

theorem cross_parent_unique (g : Graph) (hsp : (allTargets g).Nodup)
    (p₁ p₂ : Nat) (e₁ e₂ : EdgeT) (h₁ : e₁ ∈ outEdges g p₁) (h₂ : e₂ ∈ outEdges g p₂)
    (ht : e₁.tgt = e₂.tgt) : p₁ = p₂ := by
  by_contra hne
  have hp₁ := mem_out_lt_length g p₁ e₁ h₁
  have hp₂ := mem_out_lt_length g p₂ e₂ h₂
  have hpw := (List.nodup_flatten.mp hsp).2
  rw [List.pairwise_iff_getElem] at hpw
  have hq₁ : p₁ < (g.map (fun es => es.map (fun e => e.tgt))).length := by simpa
  have hq₂ : p₂ < (g.map (fun es => es.map (fun e => e.tgt))).length := by simpa
  have hm₁ : e₁.tgt ∈ (g.map (fun es => es.map (fun e => e.tgt)))[p₁] := by
    rw [List.getElem_map _, ← outEdges_lt g p₁ hp₁]
    exact List.mem_map_of_mem _ h₁
  have hm₂ : e₁.tgt ∈ (g.map (fun es => es.map (fun e => e.tgt)))[p₂] := by
    rw [List.getElem_map _, ← outEdges_lt g p₂ hp₂]
    rw [ht]
    exact List.mem_map_of_mem _ h₂
  rcases Nat.lt_or_ge p₁ p₂ with hlt | hge
  · exact hpw p₁ p₂ hq₁ hq₂ hlt hm₁ hm₂
  · have hlt : p₂ < p₁ := lt_of_le_of_ne hge (fun h => hne h.symm)
    exact hpw p₂ p₁ hq₂ hq₁ hlt hm₂ hm₁

theorem reaches_le (g : Graph) (htopo : TopoOK g) {n m : Nat} (h : Reaches g n m) :
    n ≤ m := by
  induction h with
  | refl n => exact Nat.le_refl n
  | step n e m he h ih => exact Nat.le_of_lt (Nat.lt_of_lt_of_le (htopo n e he) ih)

theorem reaches_last_edge (g : Graph) {a b : Nat} (h : Reaches g a b) :
    a ≠ b → ∃ p e, e ∈ outEdges g p ∧ e.tgt = b ∧ Reaches g a p := by
  induction h with
  | refl n => intro hne; exact absurd rfl hne
  | step n e m he h ih =>
    intro _
    by_cases hq : e.tgt = m
    · exact ⟨n, e, he, hq, Reaches.refl n⟩
    · obtain ⟨p, e₂, he₂, ht, hp⟩ := ih hq
      exact ⟨p, e₂, he₂, ht, Reaches.step n e p he hp⟩

theorem reaches_comp (g : Graph) (hsp : (allTargets g).Nodup)
    {x m : Nat} (hxm : Reaches g x m) :
    ∀ y, Reaches g y m → Reaches g x y ∨ Reaches g y x := by
  induction hxm with
  | refl n => intro y hy; exact Or.inr hy
  | step n e m he h ih =>
    intro y hy
    rcases ih y hy with h1 | h2
    · exact Or.inl (Reaches.step n e y he h1)
    · by_cases hyt : y = e.tgt
      · subst hyt
        exact Or.inl (Reaches.step n e e.tgt he (Reaches.refl e.tgt))
      · obtain ⟨p, e₂, he₂, ht, hyp⟩ := reaches_last_edge g h2 hyt
        have hpn : p = n := cross_parent_unique g hsp p n e₂ e he₂ he (by rw [ht])
        exact Or.inr (hpn ▸ hyp)

theorem siblings_not_both (g : Graph) (htopo : TopoOK g) (hsp : (allTargets g).Nodup)
    (n m : Nat) (e : EdgeT) (es : List EdgeT) (hsub : List.Sublist (e :: es) (outEdges g n))
    (hr : Reaches g e.tgt m) (e₂ : EdgeT) (he₂ : e₂ ∈ es) (hr₂ : Reaches g e₂.tgt m) :
    False := by
  have hmem : e ∈ outEdges g n := hsub.subset (List.mem_cons_self e es)
  have hmem₂ : e₂ ∈ outEdges g n := hsub.subset (List.mem_cons_of_mem e he₂)
  by_cases hte : e.tgt = e₂.tgt
  · have h1 : 1 ≤ (es.map (fun x => x.tgt)).count e.tgt := by
      rw [List.one_le_count_iff]
      rw [hte]
      exact List.mem_map_of_mem _ he₂
    have h2 : 2 ≤ ((e :: es).map (fun x => x.tgt)).count e.tgt := by
      rw [List.map_cons, List.count_cons_self]
      omega
    have h3 := (hsub.map (fun x => x.tgt)).count_le e.tgt
    have h4 := List.nodup_iff_count_le_one.mp (targets_nodup g hsp n) e.tgt
    omega
  · rcases reaches_comp g hsp hr e₂.tgt hr₂ with hcc | hcc
    · obtain ⟨p, e₃, he₃, ht, hp⟩ := reaches_last_edge g hcc hte
      have hpn : p = n := cross_parent_unique g hsp p n e₃ e₂ he₃ hmem₂ (by rw [ht])
      have hle := reaches_le g htopo (hpn ▸ hp)
      exact Nat.lt_irrefl _ (Nat.lt_of_lt_of_le (htopo n e hmem) hle)
    · obtain ⟨p, e₃, he₃, ht, hp⟩ :=
        reaches_last_edge g hcc (fun hcc2 => hte hcc2.symm)
      have hpn : p = n := cross_parent_unique g hsp p n e₃ e he₃ hmem (by rw [ht])
      have hle := reaches_le g htopo (hpn ▸ hp)
      exact Nat.lt_irrefl _ (Nat.lt_of_lt_of_le (htopo n e₂ hmem₂) hle)

theorem visitList_src_ge (k : Nat → List Visit) (n : Nat)
    (hk : ∀ t v, v ∈ k t → t ≤ v.1) :
    ∀ (es : List EdgeT), (∀ e ∈ es, n < e.tgt) → ∀ (j : Nat) (v : Visit),
      v ∈ visitList k n j es → n ≤ v.1 := by
  intro es
  induction es with
  | nil =>
    intro _ j v hv
    exact absurd hv (List.not_mem_nil v)
  | cons e es ih =>
    intro hes j v hv
    rw [show visitList k n j (e :: es) =
      (n, j, e.tgt) :: (k e.tgt ++ visitList k n (j + 1) es) from rfl] at hv
    rcases List.mem_cons.mp hv with h1 | h2
    · subst h1
      exact Nat.le_refl n
    · rcases List.mem_append.mp h2 with h3 | h4
      · have ha := hk e.tgt v h3
        have hb := hes e (List.mem_cons_self e es)
        omega
      · exact ih (fun x hx => hes x (List.mem_cons_of_mem e hx)) (j + 1) v h4

theorem dfs_src_ge (g : Graph) (htopo : TopoOK g) :
    ∀ (fuel n : Nat) (v : Visit), v ∈ dfs g fuel n → n ≤ v.1 := by
  intro fuel
  induction fuel with
  | zero =>
    intro n v hv
    exact absurd hv (List.not_mem_nil v)
  | succ fuel ih =>
    intro n v hv
    exact visitList_src_ge (fun t => dfs g fuel t) n (fun t w hw => ih t w hw)
      (outEdges g n) (fun e he => htopo n e he) 0 v hv

theorem visitList_filter_self (k : Nat → List Visit) (n : Nat)
    (hk : ∀ t v, v ∈ k t → t ≤ v.1) :
    ∀ (es : List EdgeT), (∀ e ∈ es, n < e.tgt) → ∀ (j : Nat),
      (visitList k n j es).filter (fun v => v.1 == n) =
        (es.enumFrom j).map (fun p => (n, p.1, p.2.tgt)) := by
  intro es
  induction es with
  | nil => intro _ j; rfl
  | cons e es ih =>
    intro hes j
    rw [show visitList k n j (e :: es) =
      (n, j, e.tgt) :: (k e.tgt ++ visitList k n (j + 1) es) from rfl]
    rw [List.filter_cons, List.filter_append]
    have hsub : (k e.tgt).filter (fun v => v.1 == n) = [] := by
      rw [List.filter_eq_nil_iff]
      intro v hv hb
      have h1 := hk e.tgt v hv
      have h2 := hes e (List.mem_cons_self e es)
      have h3 : v.1 = n := by
        exact beq_iff_eq.mp hb
      omega
    rw [hsub, ih (fun x hx => hes x (List.mem_cons_of_mem e hx)) (j + 1)]
    rw [show (e :: es).enumFrom j = (j, e) :: es.enumFrom (j + 1) from rfl, List.map_cons]
    simp

theorem visitList_filter_none (k : Nat → List Visit) (n m : Nat) (hmn : m ≠ n) :
    ∀ (es : List EdgeT), (∀ e ∈ es, (k e.tgt).filter (fun v => v.1 == m) = []) →
      ∀ (j : Nat), (visitList k n j es).filter (fun v => v.1 == m) = [] := by
  intro es
  induction es with
  | nil => intro _ j; rfl
  | cons e es ih =>
    intro hk j
    rw [show visitList k n j (e :: es) =
      (n, j, e.tgt) :: (k e.tgt ++ visitList k n (j + 1) es) from rfl]
    rw [List.filter_cons, List.filter_append]
    have hhead : (((n, j, e.tgt) : Visit).1 == m) = false :=
      beq_eq_false_iff_ne.mpr (fun h => hmn h.symm)
    rw [hk e (List.mem_cons_self e es), ih (fun x hx => hk x (List.mem_cons_of_mem e hx)) (j + 1)]
    simp [hhead]

theorem visitList_filter_other (g : Graph) (htopo : TopoOK g) (hsp : (allTargets g).Nodup)
    (k : Nat → List Visit) (n m : Nat) (hmn : m ≠ n)
    (hkR : ∀ e ∈ outEdges g n, Reaches g e.tgt m →
      (k e.tgt).filter (fun v => v.1 == m) = tEnum g m)
    (hkN : ∀ e ∈ outEdges g n, ¬Reaches g e.tgt m →
      (k e.tgt).filter (fun v => v.1 == m) = []) :
    ∀ (es : List EdgeT), List.Sublist es (outEdges g n) → (∃ e ∈ es, Reaches g e.tgt m) →
      ∀ (j : Nat), (visitList k n j es).filter (fun v => v.1 == m) = tEnum g m := by
  intro es
  induction es with
  | nil =>
    intro _ hex j
    obtain ⟨e, he, _⟩ := hex
    exact absurd he (List.not_mem_nil e)
  | cons e es ih =>
    intro hsub hex j
    have hmem : e ∈ outEdges g n := hsub.subset (List.mem_cons_self e es)
    have hhead : (((n, j, e.tgt) : Visit).1 == m) = false :=
      beq_eq_false_iff_ne.mpr (fun h => hmn h.symm)
    rw [show visitList k n j (e :: es) =
      (n, j, e.tgt) :: (k e.tgt ++ visitList k n (j + 1) es) from rfl]
    rw [List.filter_cons, List.filter_append]
    by_cases hre : Reaches g e.tgt m
    · have h1 := hkR e hmem hre
      have h2 : (visitList k n (j + 1) es).filter (fun v => v.1 == m) = [] := by
        apply visitList_filter_none k n m hmn es ?_ (j + 1)
        intro x hx
        apply hkN x (hsub.subset (List.mem_cons_of_mem e hx))
        intro hrx
        exact siblings_not_both g htopo hsp n m e es hsub hre x hx hrx
      rw [h1, h2]
      simp [hhead]
    · have h1 := hkN e hmem hre
      have hex₂ : ∃ x ∈ es, Reaches g x.tgt m := by
        obtain ⟨x, hx, hrx⟩ := hex
        rcases List.mem_cons.mp hx with h | h
        · subst h
          exact absurd hrx hre
        · exact ⟨x, h, hrx⟩
      rw [h1, ih (List.sublist_of_cons_sublist hsub) hex₂ (j + 1)]
      simp [hhead]

theorem dfs_filter (g : Graph) (htopo : TopoOK g) (hsp : (allTargets g).Nodup) :
    ∀ (fuel n m : Nat), g.length ≤ fuel + n →
      (Reaches g n m → (dfs g fuel n).filter (fun v => v.1 == m) = tEnum g m) ∧
      (¬Reaches g n m → (dfs g fuel n).filter (fun v => v.1 == m) = []) := by
  intro fuel
  induction fuel with
  | zero =>
    intro n m hb
    have ho : outEdges g n = [] := outEdges_eq_nil g n (by omega)
    constructor
    · intro hr
      have hm : m = n := by
        cases hr with
        | refl => rfl
        | step n e m he h =>
          rw [ho] at he
          exact absurd he (List.not_mem_nil e)
      subst hm
      show ([] : List Visit).filter (fun v => v.1 == m) = tEnum g m
      rw [show tEnum g m = ((outEdges g m).enum).map (fun p => (m, p.1, p.2.tgt)) from rfl, ho]
      rfl
    · intro _
      rfl
  | succ fuel ih =>
    intro n m hb
    rw [show dfs g (fuel + 1) n = visitList (fun t => dfs g fuel t) n 0 (outEdges g n) from rfl]
    by_cases hmn : m = n
    · subst hmn
      constructor
      · intro _
        exact visitList_filter_self (fun t => dfs g fuel t) m
          (fun t v hv => dfs_src_ge g htopo fuel t v hv) (outEdges g m)
          (fun e he => htopo m e he) 0
      · intro hnr
        exact absurd (Reaches.refl m) hnr
    · constructor
      · intro hr
        have hex : ∃ e ∈ outEdges g n, Reaches g e.tgt m := by
          cases hr with
          | refl => exact absurd rfl hmn
          | step n e m he h => exact ⟨e, he, h⟩
        apply visitList_filter_other g htopo hsp (fun t => dfs g fuel t) n m hmn
          ?_ ?_ (outEdges g n) (List.Sublist.refl _) hex 0
        · intro e he hre
          have hb₂ : g.length ≤ fuel + e.tgt := by
            have := htopo n e he
            omega
          exact (ih e.tgt m hb₂).1 hre
        · intro e he hre
          have hb₂ : g.length ≤ fuel + e.tgt := by
            have := htopo n e he
            omega
          exact (ih e.tgt m hb₂).2 hre
      · intro hnr
        apply visitList_filter_none (fun t => dfs g fuel t) n m hmn (outEdges g n) ?_ 0
        intro e he
        have hb₂ : g.length ≤ fuel + e.tgt := by
          have := htopo n e he
          omega
        apply (ih e.tgt m hb₂).2
        intro hre
        exact hnr (Reaches.step n e m he hre)

theorem count_filter_eq {α : Type} [BEq α] [LawfulBEq α] (l : List α) (p : α → Bool) (a : α)
    (h : p a = true) : (l.filter p).count a = l.count a := by
  induction l with
  | nil => rfl
  | cons x l ih =>
    rw [List.filter_cons]
    by_cases hx : (x == a) = true
    · have hxa : x = a := eq_of_beq hx
      subst hxa
      rw [if_pos h, List.count_cons_self, List.count_cons_self, ih]
    · have hne : a ≠ x := fun hc => hx (by subst hc; exact beq_self_eq_true a)
      by_cases hp : p x = true
      · rw [if_pos hp, List.count_cons_of_ne hne, List.count_cons_of_ne hne, ih]
      · rw [if_neg hp, List.count_cons_of_ne hne, ih]

theorem count_eq_one_of_nodup_mem {α : Type} [BEq α] [LawfulBEq α] {l : List α} {a : α}
    (hnd : l.Nodup) (h : a ∈ l) : l.count a = 1 := by
  induction l with
  | nil => exact absurd h (List.not_mem_nil a)
  | cons x l ih =>
    have hx := List.nodup_cons.mp hnd
    rcases List.mem_cons.mp h with h1 | h2
    · subst h1
      have h0 : l.count a = 0 := List.count_eq_zero.mpr hx.1
      rw [List.count_cons_self, h0]
    · have hne : a ≠ x := fun hc => hx.1 (hc ▸ h2)
      rw [List.count_cons_of_ne hne, ih hx.2 h2]

theorem tEnum_nodup (g : Graph) (m : Nat) : (tEnum g m).Nodup := by
  have hmap : (tEnum g m).map (fun v => v.2.1) = (outEdges g m).enum.map Prod.fst := by
    unfold tEnum
    rw [List.map_map]
    rfl
  have h2 : ((tEnum g m).map (fun v => v.2.1)).Nodup := by
    rw [hmap]
    exact List.nodup_enum_map_fst _
  exact List.Nodup.of_map _ h2

/-- C4 (amended): in the spec's traversal mechanism an edge below a node with
several incoming references is visited once per incoming path (counterexample:
the diamond graph); the claim holds as stated for cycle-free graphs in which
every node has at most one incoming edge.  There, a full traversal from a root
visits every reachable node's outgoing edges exactly once each, appearing
exactly in attachment order (the filtered visit sequence of node `m` is its edge
list in order); traversal is deterministic by construction, being a pure
function of the graph. -/
theorem C4_traversal (g : Graph) (fuel root m : Nat)
    (htopo : TopoOK g) (hsp : (allTargets g).Nodup)
    (hfuel : g.length ≤ fuel + root) (hreach : Reaches g root m) :
    (dfs g fuel root).filter (fun v => v.1 == m) = tEnum g m ∧
    ∀ v ∈ tEnum g m, (dfs g fuel root).count v = 1 := by
  have hfil := (dfs_filter g htopo hsp fuel root m hfuel).1 hreach
  refine ⟨hfil, ?_⟩
  intro v hv
  have hsrc : (v.1 == m) = true := by
    obtain ⟨p, _, hp⟩ := List.mem_map.mp hv
    rw [← hp]
    exact beq_self_eq_true m
  calc (dfs g fuel root).count v
      = ((dfs g fuel root).filter (fun u => u.1 == m)).count v :=
        (count_filter_eq (dfs g fuel root) (fun u => u.1 == m) v hsrc).symm
    _ = (tEnum g m).count v := by rw [hfil]
    _ = 1 := count_eq_one_of_nodup_mem (tEnum_nodup g m) hv

/-- A single-parent tree: 0 → 1, 0 → 2, 1 → 3. -/
def gW : Graph := [[⟨"a", "e", 1⟩, ⟨"b", "e", 2⟩], [⟨"c", "e", 3⟩], [], []]

/-- C4 witness: the amended theorem applied to a concrete single-parent tree;
node 1's visit block is exactly its edge list, once. -/
theorem C4_traversal_witness :
    (dfs gW 4 0).filter (fun v => v.1 == 1) = tEnum gW 1 ∧
    (dfs gW 4 0).count ((1 : Nat), (0 : Nat), (3 : Nat)) = 1 := by
  have h := C4_traversal gW 4 0 1 (topoCheck_sound gW (by decide)) (by decide)
    (by decide) (Reaches.step 0 ⟨"a", "e", 1⟩ 1 (by decide) (Reaches.refl 1))
  exact ⟨h.1, h.2 (1, 0, 3) (by decide)⟩


end NNCG
